import Mathlib

/-!
Verification of the CAEN scope acquisition-to-storage pipeline.

The development shallowly embeds the pipeline of `main.py` (class
`DataAcquisition`: the acquisition producer thread, the save consumer
thread, and the ADC-to-millivolt calibration) together with the offline
record reader of `bin_check.py` (class `ReadRawFile`).

Modelling conventions:
* A file is a `List Nat` of byte values; `struct.pack`/`struct.unpack`
  little-endian fields become the `toLE`/`fromLE` codec below.
  `struct.pack` raises `struct.error` on an out-of-range argument, which is
  modelled by `packU` returning `none`.
* Python float semantics: the calibration formula
  `adc_array.astype(np.float32) * self.adc_scale + self.adc_offset` is
  modelled as the exact rational affine map `adc_to_mv`, composed with a
  single IEEE-754 binary32 round-to-nearest-even step `f32ofRat` giving the
  32-bit pattern that `numpy.tofile` serializes.  The reader's
  `struct.unpack` of a float is modelled by returning that 32-bit pattern
  (bit patterns and non-NaN float values are in bijection).
* The two worker threads interleave only through the queue and the stop
  flag.  A consumer run is modelled by the list of successful queue `get`
  results (`none` being the end-of-stream sentinel) plus the index of the
  first top-of-loop check at which the stop flag reads true.
-/

namespace CaenScope

/-! ## Little-endian byte codec (`struct.pack` / `struct.unpack`) -/

/-- Little-endian base-256 digits: `w` bytes of the value `v`
(the serialization performed by `struct.pack` for unsigned fields). -/
def toLE : Nat → Nat → List Nat
  | 0, _ => []
  | w + 1, v => v % 256 :: toLE w (v / 256)

/-- Value of a little-endian byte list (the decoding performed by
`struct.unpack` for unsigned fields). -/
def fromLE : List Nat → Nat
  | [] => 0
  | b :: bs => b + 256 * fromLE bs

theorem toLE_length (w v : Nat) : (toLE w v).length = w := by
  induction w generalizing v with
  | zero => rfl
  | succ w ih => simp [toLE, ih]

theorem fromLE_toLE (w v : Nat) : fromLE (toLE w v) = v % 256 ^ w := by
  induction w generalizing v with
  | zero => simp [toLE, fromLE, Nat.mod_one]
  | succ w ih =>
    simp only [toLE, fromLE, ih]
    rw [pow_succ, Nat.mul_comm (256 ^ w) 256, Nat.mod_mul]

theorem fromLE_toLE_of_lt {w v : Nat} (h : v < 256 ^ w) :
    fromLE (toLE w v) = v := by
  rw [fromLE_toLE, Nat.mod_eq_of_lt h]

/-- `struct.pack` of an unsigned `w`-byte field: fails (raises
`struct.error`) when the argument does not fit. -/
def packU (w v : Nat) : Option (List Nat) :=
  if v < 256 ^ w then some (toLE w v) else none

/-! ## Calibration transform (`DataAcquisition.adc_to_mv`) -/

/-- ADC scale constant: `self.adc_scale = 2.0 / (2**self.adc_n_bits - 1)`
(float arithmetic idealized as exact rational arithmetic). -/
def adc_scale (adc_n_bits : Nat) : ℚ := 2 / (2 ^ adc_n_bits - 1)

/-- ADC offset constant: `self.adc_offset = -1.0`. -/
def adc_offset : ℚ := -1

/-- Calibration of one sample:
`adc_array.astype(np.float32) * self.adc_scale + self.adc_offset`,
idealized over exact rationals (a `u16` raw sample converts to `float32`
exactly; the rounding of the result to `float32` is applied separately by
`f32ofRat` at the serialization boundary). -/
def adc_to_mv (adc_n_bits : Nat) (raw : ℚ) : ℚ :=
  raw * adc_scale adc_n_bits + adc_offset

/-! ## IEEE-754 binary32 bit patterns

The save thread writes the calibrated samples with `numpy.tofile` as
32-bit floats.  `f32ofRat` rounds a rational to the nearest binary32 and
returns its bit pattern; no theorem below depends on the rounding
behaviour, only on the pattern being a 32-bit value, so the claims about
the byte format are insensitive to the fine structure of this function. -/

/-- Fuel-bounded floor base-2 logarithm (structural recursion, so the
kernel can evaluate it; 128 levels cover every exponent a binary32 can
distinguish). -/
def log2Aux : Nat → Nat → Nat
  | 0, _ => 0
  | fuel + 1, n => if 2 ≤ n then log2Aux fuel (n / 2) + 1 else 0

/-- Floor base-2 logarithm of a natural number. -/
def nlog2 (n : Nat) : Nat := log2Aux 128 n

/-- Round the fraction `n / d` to the nearest natural number, ties to
even. -/
def rnEvenFrac (n d : Nat) : Nat :=
  let k := n / d
  let r := n % d
  if 2 * r < d then k else if d < 2 * r then k + 1 else if k % 2 = 0 then k else k + 1

/-- Decide `a / d ≥ 2 ^ e` over integers. -/
def fracGePow2 (a d : Nat) (e : ℤ) : Bool :=
  if 0 ≤ e then d * 2 ^ e.toNat ≤ a else d ≤ a * 2 ^ (-e).toNat

/-- Floor base-2 logarithm of the positive fraction `a / d`: an integer
candidate, then a bounded correction. -/
def fracLog2 (a d : Nat) : ℤ :=
  let c : ℤ := if d ≤ a then (nlog2 (a / d) : ℤ) else -(nlog2 (d / a) : ℤ) - 1
  if fracGePow2 a d (c + 1) then (if fracGePow2 a d (c + 2) then c + 2 else c + 1)
  else if fracGePow2 a d c then c
  else if fracGePow2 a d (c - 1) then c - 1
  else c - 2

/-- Bit pattern of the IEEE-754 binary32 value nearest to `num / den`
(`den > 0`; round to nearest, ties to even; overflow to infinity, gradual
underflow to subnormals).  Works directly on the integer fraction so the
kernel can evaluate it. -/
def f32ofFrac (num den : ℤ) : Nat :=
  (if num = 0 then 0
   else
     let s : Nat := if num < 0 then 2 ^ 31 else 0
     let a := num.natAbs
     let d := den.natAbs
     let e : ℤ := max (fracLog2 a d) (-126)
     let sig : Nat :=
       if 0 ≤ 23 - e then rnEvenFrac (a * 2 ^ (23 - e).toNat) d
       else rnEvenFrac a (d * 2 ^ (e - 23).toNat)
     let e' : ℤ := if sig = 2 ^ 24 then e + 1 else e
     let sig' : Nat := if sig = 2 ^ 24 then 2 ^ 23 else sig
     if 127 < e' then s + 255 * 2 ^ 23
     else if sig' < 2 ^ 23 then s + sig'
     else s + (e' + 127).toNat * 2 ^ 23 + (sig' - 2 ^ 23)) % 2 ^ 32

/-- Bit pattern of the binary32 value nearest to a rational. -/
def f32ofRat (q : ℚ) : Nat := f32ofFrac q.num (q.den : ℤ)

theorem f32ofFrac_lt (num den : ℤ) : f32ofFrac num den < 2 ^ 32 := by
  unfold f32ofFrac
  exact Nat.mod_lt _ (by norm_num)

/-- Bit pattern of the calibrated (float32) form of one raw sample, as
written to disk by the save thread: the binary32 rounding of
`adc_to_mv b raw = raw * 2 / (2 ^ b - 1) - 1`, written fraction-wise as
`(2 * raw - (2 ^ b - 1)) / (2 ^ b - 1)` so the kernel can evaluate it. -/
def adcSampleBits (adc_n_bits raw : Nat) : Nat :=
  f32ofFrac (2 * (raw : ℤ) - (2 ^ adc_n_bits - 1)) (2 ^ adc_n_bits - 1)

theorem adcSampleBits_lt (b r : Nat) : adcSampleBits b r < 2 ^ 32 :=
  f32ofFrac_lt _ _

/-! ## Data model -/

/-- One channel's portion of an acquisition frame: the raw `u16` waveform
buffer and the device-reported number of valid samples
(`WAVEFORM_SIZE`, a `u64`). -/
structure ChannelData where
  raw : List Nat
  validCount : Nat
deriving DecidableEq, Repr

/-- One acquisition frame: `TRIGGER_ID` (`u32`), `TIMESTAMP` (`u64`) and
the per-channel waveforms, as copied into the queue by the acquisition
thread. -/
structure Frame where
  triggerId : Nat
  timestamp : Nat
  channels : List ChannelData
deriving DecidableEq, Repr

/-- Concatenation of a list of byte strings. -/
def joinL : List (List Nat) → List Nat
  | [] => []
  | x :: xs => x ++ joinL xs

theorem joinL_append (xs ys : List (List Nat)) :
    joinL (xs ++ ys) = joinL xs ++ joinL ys := by
  induction xs with
  | nil => rfl
  | cons x xs ih => simp [joinL, ih]

/-! ## Storage consumer (`DataAcquisition.save_thread`) -/

/-- Serialization of one channel's record, following the save thread's
write sequence:

```
f.write(struct.pack("I", trigger_num))
f.write(struct.pack("Q", timestamp))
f.write(struct.pack("I", size))
f.write(struct.pack("Q", 8))  # time resolution
waveform_mv = self.adc_to_mv(waveform[:size])
waveform_mv.tofile(f)
```

Returns the bytes actually written and whether the writes all succeeded:
when a `struct.pack` raises, the fields already written stay in the file
and the exception aborts the rest of the record.  `waveform[:size]` is a
clamping slice, modelled by `List.take`; `struct.pack("Q", 8)` cannot
fail and is written as its byte string directly. -/
def writeChannel (b trig ts : Nat) (ch : ChannelData) : List Nat × Bool :=
  match packU 4 trig with
  | none => ([], false)
  | some f1 =>
    match packU 8 ts with
    | none => (f1, false)
    | some f2 =>
      match packU 4 ch.validCount with
      | none => (f1 ++ f2, false)
      | some f3 =>
        (f1 ++ f2 ++ f3 ++ toLE 8 8
          ++ joinL (((ch.raw.take ch.validCount).map (adcSampleBits b)).map (toLE 4)),
         true)

/-- The save thread's per-frame loop `for i, waveform in enumerate(waveforms)`:
channel `i` of the frame is appended to file `i`.  A write failure on one
channel propagates (the exception is re-raised) and leaves the remaining
files untouched; a frame with more channels than open files raises a
`KeyError` on `file_handles[i]`, likewise aborting with the files
untouched. -/
def processChannels (b trig ts : Nat) :
    List ChannelData → List (List Nat) → List (List Nat) × Bool
  | [], files => (files, true)
  | _ :: _, [] => ([], false)
  | ch :: chs, file :: files =>
    let w := writeChannel b trig ts ch
    if w.2 then
      let rest := processChannels b trig ts chs files
      ((file ++ w.1) :: rest.1, rest.2)
    else
      ((file ++ w.1) :: files, false)

/-- The save thread's main loop

```
while not self.stop_event.is_set():
    try:
        acquisition_data = self.acquisition_queue.get(timeout=1)
        if acquisition_data is None: break
        ... serialize each channel ...
    except queue.Empty: continue
    except Exception: ... raise
except Exception: ... self.stop_event.set()
```

modelled over the sequence of successful queue reads (`none` is the
end-of-stream sentinel) and `extStop`, the index of the first top-of-loop
check at which the stop flag reads true (timeouts between reads only shift
that index, which is universally quantified in the theorems).  Returns the
final per-channel file contents and the stop flag's value when the loop
exits: exiting because the flag was observed (or after the reads are
exhausted, which only ends by a later flag observation) yields `true`, a
serialization error sets the flag (`true`), and a sentinel exit leaves it
unset (`false`). -/
def saveLoop (b : Nat) :
    Nat → List (Option Frame) → List (List Nat) → List (List Nat) × Bool
  | 0, _, files => (files, true)
  | _ + 1, [], files => (files, true)
  | _ + 1, none :: _, files => (files, false)
  | k + 1, some f :: rest, files =>
    let p := processChannels b f.triggerId f.timestamp f.channels files
    if p.2 then saveLoop b k rest p.1 else (p.1, true)

/-- Outcome of one save-thread run. -/
structure SaveResult where
  files : List (List Nat)
  stopSet : Bool
  closed : Bool
deriving DecidableEq, Repr

/-- A full save-thread run: the channel files are opened in append mode
(`open(filename, "ab", ...)`, so `initFiles` holds whatever bytes each
file already contained), the main loop runs, and the `finally` block
flushes and closes every file on every exit path. -/
def save_thread (b extStop : Nat) (items : List (Option Frame))
    (initFiles : List (List Nat)) : SaveResult :=
  let r := saveLoop b extStop items initFiles
  { files := r.1, stopSet := r.2, closed := true }

/-! ## Acquisition producer (`DataAcquisition.acquisition_thread`) -/

/-- Outcome of one acquisition-thread run: the items put on the queue in
order (`none` is the sentinel), the stop flag's value at exit, and whether
`DisarmAcquisition` was issued. -/
structure ProdResult where
  queued : List (Option Frame)
  stopSet : Bool
  disarmed : Bool
deriving DecidableEq, Repr

/-- The acquisition thread's trigger loop

```
try:
    ... arm, start ...
    while not self.stop_event.is_set():
        self.dig.cmd.SendSwTrigger()
        self.dig.endpoint.scope.read_data(-1, self.data)
        ... deep-copy into acquisition_data ...
        self.acquisition_queue.put(acquisition_data)
    self.acquisition_queue.put(None)
except Exception: ... self.stop_event.set()
finally: self.dig.cmd.DisarmAcquisition()
```

modelled over the frame source's responses, one per loop iteration: `ok f`
is a successfully read frame, `error` an exception from the trigger/read
call.  Exhausting the response list stands for the stop flag being
observed set at the next check (so the flag is `true` on that exit); note
that the sentinel `put(None)` sits after the `while` loop inside the
`try`, so it runs only on that flag-observed exit, not when an exception
is caught. -/
def acqLoop : List (Except Unit Frame) → List (Option Frame) → ProdResult
  | [], acc => ⟨acc ++ [none], true, true⟩
  | .ok f :: rest, acc => acqLoop rest (acc ++ [some f])
  | .error _ :: _, acc => ⟨acc, true, true⟩

/-- A full acquisition-thread run over the given frame source responses. -/
def acquisition_thread (steps : List (Except Unit Frame)) : ProdResult :=
  acqLoop steps []

/-! ## Record reader (`ReadRawFile.read_raw_data` in `bin_check.py`) -/

/-- One decoded record, mirroring the `Event` class of `bin_check.py`.
`waveform` holds the 32-bit patterns of the float samples
(`struct.unpack("<f", ...)` exposes them as the denoted float values, a
bijection for non-NaN patterns). -/
structure Event where
  eventNumber : Nat
  timestamp : Nat
  nSamples : Nat
  timeResolution : Nat
  waveform : List Nat
deriving DecidableEq, Repr

/-- `struct.unpack` of a `w`-byte unsigned field from the head of the
stream: `myfile.read(w)` returns at most the remaining bytes and
`struct.unpack` raises `struct.error` when given fewer than `w`. -/
def readU (w : Nat) (s : List Nat) : Option (Nat × List Nat) :=
  if w ≤ s.length then some (fromLE (s.take w), s.drop w) else none

/-- The sample loop `for _ in range(nSamples): ... struct.unpack("<f",
myfile.read(4))`: reads `n` four-byte floats, failing if the stream runs
out. -/
def readFloats : Nat → List Nat → Option (List Nat × List Nat)
  | 0, s => some ([], s)
  | n + 1, s => do
    let (x, s1) ← readU 4 s
    let (xs, s2) ← readFloats n s1
    pure (x :: xs, s2)

/-- One iteration of the reader's `while True` loop: the four header
fields then `nSamples` floats; any `struct.error` ends the generator. -/
def readRecord (s : List Nat) : Option (Event × List Nat) := do
  let (en, s1) ← readU 4 s
  let (ts, s2) ← readU 8 s1
  let (n, s3) ← readU 4 s2
  let (tr, s4) ← readU 8 s3
  let (wf, s5) ← readFloats n s4
  pure (⟨en, ts, n, tr, wf⟩, s5)

theorem readU_length {w : Nat} {s : List Nat} {x : Nat} {s' : List Nat}
    (h : readU w s = some (x, s')) : w ≤ s.length ∧ s'.length = s.length - w := by
  unfold readU at h
  split at h
  · next hw =>
    refine ⟨hw, ?_⟩
    cases h
    simp
  · cases h

theorem readFloats_length {n : Nat} {s : List Nat} {xs : List Nat} {s' : List Nat}
    (h : readFloats n s = some (xs, s')) : s'.length ≤ s.length := by
  induction n generalizing s xs s' with
  | zero =>
    simp only [readFloats, Option.pure_def, Option.some.injEq] at h
    cases h
    exact Nat.le_refl _
  | succ n ih =>
    simp only [readFloats, Option.pure_def, Option.bind_eq_bind, Option.bind_eq_some] at h
    obtain ⟨⟨x, s1⟩, h1, ⟨xs2, s2⟩, h2, h3⟩ := h
    cases h3
    have l1 := readU_length h1
    have l2 := ih h2
    dsimp only at l1 l2 ⊢
    omega

theorem readRecord_length {s : List Nat} {e : Event} {s' : List Nat}
    (h : readRecord s = some (e, s')) : s'.length < s.length := by
  simp only [readRecord, Option.pure_def, Option.bind_eq_bind, Option.bind_eq_some] at h
  obtain ⟨⟨en, s1⟩, h1, ⟨ts, s2⟩, h2, ⟨n, s3⟩, h3, ⟨tr, s4⟩, h4, ⟨wf, s5⟩, h5, h6⟩ := h
  cases h6
  have l1 := readU_length h1
  have l2 := readU_length h2
  have l3 := readU_length h3
  have l4 := readU_length h4
  have l5 := readFloats_length h5
  dsimp only at l1 l2 l3 l4 l5 ⊢
  omega

/-- The reader's driver: repeat `readRecord` until a `struct.error`
(`except struct.error: break`), collecting all fully decoded records. -/
def read_raw_data (s : List Nat) : List Event :=
  match h : readRecord s with
  | none => []
  | some (e, s') => e :: read_raw_data s'
termination_by s.length
decreasing_by exact readRecord_length h

/-! ## Writer/reader interaction lemmas -/

theorem readU_toLE {w v : Nat} (rest : List Nat) (hv : v < 256 ^ w) :
    readU w (toLE w v ++ rest) = some (v, rest) := by
  unfold readU
  rw [if_pos (by simp [toLE_length]),
    List.take_left' (toLE_length w v), List.drop_left' (toLE_length w v),
    fromLE_toLE_of_lt hv]

theorem writeChannel_ok {b trig ts : Nat} {ch : ChannelData}
    (h1 : trig < 2 ^ 32) (h2 : ts < 2 ^ 64) (h3 : ch.validCount < 2 ^ 32) :
    writeChannel b trig ts ch =
      (toLE 4 trig ++ toLE 8 ts ++ toLE 4 ch.validCount ++ toLE 8 8
        ++ joinL (((ch.raw.take ch.validCount).map (adcSampleBits b)).map (toLE 4)),
       true) := by
  unfold writeChannel packU
  rw [if_pos (by norm_num at h1 ⊢; exact h1), if_pos (by norm_num at h2 ⊢; exact h2),
    if_pos (by norm_num at h3 ⊢; exact h3)]

theorem readFloats_joinL {n : Nat} (samples rest : List Nat)
    (hn : n = samples.length) (h : ∀ x ∈ samples, x < 2 ^ 32) :
    readFloats n (joinL (samples.map (toLE 4)) ++ rest)
      = some (samples, rest) := by
  subst hn
  induction samples with
  | nil => simp [joinL, readFloats]
  | cons x xs ih =>
    simp only [List.map_cons, joinL, List.length_cons, readFloats, List.append_assoc,
      Option.pure_def, Option.bind_eq_bind]
    rw [readU_toLE _ (by have := h x (by simp); norm_num at this ⊢; exact this)]
    rw [Option.some_bind, ih (fun y hy => h y (List.mem_cons_of_mem _ hy)),
      Option.some_bind]

/-- A frame is serializable and valid: header fields in range for their
widths and, per channel, the valid count in range and bounded by the raw
buffer length. -/
def GoodFrame (f : Frame) : Prop :=
  f.triggerId < 2 ^ 32 ∧ f.timestamp < 2 ^ 64 ∧
    ∀ ch ∈ f.channels, ch.validCount < 2 ^ 32 ∧ ch.validCount ≤ ch.raw.length

instance (f : Frame) : Decidable (GoodFrame f) := by
  unfold GoodFrame
  infer_instance

/-- The record the save thread appends to channel `i`'s file for one
frame. -/
def frameRecord (b i : Nat) (f : Frame) : List Nat :=
  (writeChannel b f.triggerId f.timestamp (f.channels.getD i ⟨[], 0⟩)).1

/-- The decoded form of channel `i`'s record of one frame. -/
def frameEvent (b i : Nat) (f : Frame) : Event :=
  { eventNumber := f.triggerId
    timestamp := f.timestamp
    nSamples := (f.channels.getD i ⟨[], 0⟩).validCount
    timeResolution := 8
    waveform := ((f.channels.getD i ⟨[], 0⟩).raw.take
        (f.channels.getD i ⟨[], 0⟩).validCount).map (adcSampleBits b) }

theorem readRecord_writeChannel {b trig ts : Nat} {ch : ChannelData} (rest : List Nat)
    (h1 : trig < 2 ^ 32) (h2 : ts < 2 ^ 64) (h3 : ch.validCount < 2 ^ 32)
    (h4 : ch.validCount ≤ ch.raw.length) :
    readRecord ((writeChannel b trig ts ch).1 ++ rest)
      = some (⟨trig, ts, ch.validCount, 8,
          (ch.raw.take ch.validCount).map (adcSampleBits b)⟩, rest) := by
  rw [writeChannel_ok h1 h2 h3]
  unfold readRecord
  simp only [List.append_assoc, Option.pure_def, Option.bind_eq_bind]
  rw [readU_toLE _ (by norm_num at h1 ⊢; exact h1), Option.some_bind,
    readU_toLE _ (by norm_num at h2 ⊢; exact h2), Option.some_bind,
    readU_toLE _ (by norm_num at h3 ⊢; exact h3), Option.some_bind,
    readU_toLE _ (by norm_num), Option.some_bind]
  have hlen : ch.validCount
      = ((ch.raw.take ch.validCount).map (adcSampleBits b)).length := by
    simp [Nat.min_eq_left h4]
  rw [readFloats_joinL _ rest hlen (by
    intro x hx
    obtain ⟨r, _, hr⟩ := List.mem_map.mp hx
    exact hr ▸ adcSampleBits_lt b r), Option.some_bind]

theorem readRecord_nil : readRecord [] = none := rfl

theorem read_raw_data_eq_nil {s : List Nat} (h : readRecord s = none) :
    read_raw_data s = [] := by
  unfold read_raw_data
  split
  · rfl
  · next e s' heq => rw [h] at heq; cases heq

theorem read_raw_data_eq_cons {s : List Nat} {e : Event} {s' : List Nat}
    (h : readRecord s = some (e, s')) :
    read_raw_data s = e :: read_raw_data s' := by
  conv_lhs => unfold read_raw_data
  split
  · next heq => rw [h] at heq; cases heq
  · next e2 s2 heq =>
    rw [h] at heq
    cases heq
    rfl

theorem read_raw_data_nil : read_raw_data [] = [] :=
  read_raw_data_eq_nil readRecord_nil

/-- Decoding a concatenation of well-formed records yields their decoded
events followed by whatever the trailing bytes decode to. -/
theorem read_raw_data_records (b i : Nat) (frames : List Frame) (tail : List Nat)
    (hg : ∀ f ∈ frames, GoodFrame f) (hch : ∀ f ∈ frames, i < f.channels.length) :
    read_raw_data (joinL (frames.map (frameRecord b i)) ++ tail)
      = frames.map (frameEvent b i) ++ read_raw_data tail := by
  induction frames with
  | nil => simp [joinL]
  | cons f fr ih =>
    simp only [List.map_cons, joinL, List.append_assoc, frameRecord]
    obtain ⟨hg1, hg2, hg3⟩ := hg f (by simp)
    have hchf : i < f.channels.length := hch f (by simp)
    have hmem : f.channels.getD i ⟨[], 0⟩ ∈ f.channels := by
      rw [List.getD_eq_getElem _ _ hchf]
      exact List.getElem_mem _
    obtain ⟨hc1, hc2⟩ := hg3 _ hmem
    rw [read_raw_data_eq_cons (readRecord_writeChannel _ hg1 hg2 hc1 hc2)]
    rw [ih (fun g hgm => hg g (by simp [hgm])) (fun g hgm => hch g (by simp [hgm]))]
    rfl

/-! ## Consumer-run lemmas -/

theorem processChannels_length (b tr ts : Nat) (chs : List ChannelData)
    (files : List (List Nat)) :
    (processChannels b tr ts chs files).1.length = files.length := by
  induction chs generalizing files with
  | nil => rfl
  | cons ch chs ih =>
    cases files with
    | nil => rfl
    | cons file files =>
      simp only [processChannels]
      split
      · simp [ih]
      · simp

theorem processChannels_extends (b tr ts : Nat) (chs : List ChannelData)
    (files : List (List Nat)) (i : Nat) :
    files.getD i [] <+: (processChannels b tr ts chs files).1.getD i [] := by
  induction chs generalizing files i with
  | nil => exact List.prefix_rfl
  | cons ch chs ih =>
    cases files with
    | nil => exact List.prefix_rfl
    | cons file files =>
      simp only [processChannels]
      split
      · cases i with
        | zero =>
          simp only [List.getD_cons_zero]
          exact List.prefix_append file _
        | succ i =>
          simp only [List.getD_cons_succ]
          exact ih files i
      · cases i with
        | zero =>
          simp only [List.getD_cons_zero]
          exact List.prefix_append file _
        | succ i =>
          simp only [List.getD_cons_succ]
          exact List.prefix_rfl

theorem processChannels_ok_char (b tr ts : Nat) (chs : List ChannelData)
    (files : List (List Nat)) (hlen : chs.length = files.length)
    (h1 : tr < 2 ^ 32) (h2 : ts < 2 ^ 64)
    (h3 : ∀ ch ∈ chs, ch.validCount < 2 ^ 32) :
    processChannels b tr ts chs files
      = (List.zipWith (fun file ch => file ++ (writeChannel b tr ts ch).1) files chs,
         true) := by
  induction chs generalizing files with
  | nil =>
    cases files with
    | nil => rfl
    | cons file files => simp at hlen
  | cons ch chs ih =>
    cases files with
    | nil => simp at hlen
    | cons file files =>
      have hok : (writeChannel b tr ts ch).2 = true := by
        rw [writeChannel_ok h1 h2 (h3 ch (by simp))]
      simp only [processChannels, hok, if_true]
      rw [ih files (by simpa using hlen) (fun c hc => h3 c (by simp [hc]))]
      simp

theorem zipWith_append_getD (b tr ts : Nat) (files : List (List Nat))
    (chs : List ChannelData) (i : Nat) (hi : i < files.length)
    (hlen : chs.length = files.length) :
    (List.zipWith (fun file ch => file ++ (writeChannel b tr ts ch).1) files chs).getD i []
      = files.getD i [] ++ (writeChannel b tr ts (chs.getD i ⟨[], 0⟩)).1 := by
  induction files generalizing chs i with
  | nil => simp at hi
  | cons file files ih =>
    cases chs with
    | nil => simp at hlen
    | cons ch chs =>
      cases i with
      | zero => simp
      | succ i =>
        simp only [List.zipWith_cons_cons, List.getD_cons_succ]
        exact ih chs i (by simpa using hi) (by simpa using hlen)

/-- The frames a consumer run dequeues and fully processes before it
exits: cut off by the stop-flag observation index, the sentinel, or the
end of the read sequence. -/
def dequeuedFrames : Nat → List (Option Frame) → List Frame
  | 0, _ => []
  | _ + 1, [] => []
  | _ + 1, none :: _ => []
  | k + 1, some f :: rest => f :: dequeuedFrames k rest

theorem saveLoop_length (b k : Nat) (items : List (Option Frame))
    (files : List (List Nat)) :
    (saveLoop b k items files).1.length = files.length := by
  induction items generalizing k files with
  | nil => cases k <;> rfl
  | cons item rest ih =>
    cases k with
    | zero => rfl
    | succ k =>
      cases item with
      | none => rfl
      | some f =>
        simp only [saveLoop]
        split
        · rw [ih k _, processChannels_length]
        · exact processChannels_length b f.triggerId f.timestamp f.channels files

theorem saveLoop_extends (b k : Nat) (items : List (Option Frame))
    (files : List (List Nat)) (i : Nat) :
    files.getD i [] <+: (saveLoop b k items files).1.getD i [] := by
  induction items generalizing k files with
  | nil => cases k <;> exact List.prefix_rfl
  | cons item rest ih =>
    cases k with
    | zero => exact List.prefix_rfl
    | succ k =>
      cases item with
      | none => exact List.prefix_rfl
      | some f =>
        simp only [saveLoop]
        split
        · exact (processChannels_extends b _ _ _ files i).trans (ih k _)
        · exact processChannels_extends b _ _ _ files i

/-- Characterization of a run in which every dequeued frame is valid and
serializable: the loop exits via the sentinel (or end of reads) with the
stop flag as dictated, every dequeued frame is appended as one complete
record per channel, and nothing else is written. -/
theorem saveLoop_run (b : Nat) (frames : List Frame) (k : Nat)
    (files : List (List Nat)) (hk : frames.length < k)
    (hg : ∀ f ∈ frames, GoodFrame f)
    (hn : ∀ f ∈ frames, f.channels.length = files.length) :
    (saveLoop b k (frames.map some ++ [none]) files).2 = false ∧
    ∀ i, i < files.length →
      (saveLoop b k (frames.map some ++ [none]) files).1.getD i []
        = files.getD i [] ++ joinL (frames.map (frameRecord b i)) := by
  induction frames generalizing k files with
  | nil =>
    cases k with
    | zero => omega
    | succ k =>
      refine ⟨rfl, fun i _ => ?_⟩
      simp [saveLoop, joinL]
  | cons f fr ih =>
    cases k with
    | zero => omega
    | succ k =>
      obtain ⟨hg1, hg2, hg3⟩ := hg f (by simp)
      have hlen : f.channels.length = files.length := hn f (by simp)
      have hchar := processChannels_ok_char b f.triggerId f.timestamp f.channels files
        hlen hg1 hg2 (fun c hc => (hg3 c hc).1)
      simp only [List.map_cons, List.cons_append, saveLoop, hchar, if_true, List.append_eq]
      have hzlen : (List.zipWith
          (fun file ch => file ++ (writeChannel b f.triggerId f.timestamp ch).1)
          files f.channels).length = files.length := by
        simp [hlen]
      have ihr := ih k (List.zipWith
          (fun file ch => file ++ (writeChannel b f.triggerId f.timestamp ch).1)
          files f.channels)
        (by simpa using hk)
        (fun g hgm => hg g (by simp [hgm]))
        (fun g hgm => by rw [hzlen]; exact hn g (by simp [hgm]))
      refine ⟨ihr.1, fun i hi => ?_⟩
      rw [ihr.2 i (by rw [hzlen]; exact hi)]
      rw [zipWith_append_getD b _ _ files f.channels i hi hlen]
      simp only [List.map_cons, joinL, List.append_assoc]
      rfl

/-- A failing `struct.pack` on any channel of a frame aborts the frame:
the exception propagates out of the per-channel loop. -/
theorem processChannels_fail (b tr ts : Nat) (chs : List ChannelData)
    (files : List (List Nat)) (ch : ChannelData) (hmem : ch ∈ chs)
    (hbad : (writeChannel b tr ts ch).2 = false) :
    (processChannels b tr ts chs files).2 = false := by
  induction chs generalizing files with
  | nil => simp at hmem
  | cons c chs ih =>
    cases files with
    | nil => rfl
    | cons file files =>
      simp only [processChannels]
      rcases List.mem_cons.mp hmem with hc | hc
      · subst hc
        simp [hbad]
      · split
        · exact ih files hc
        · rfl

/-- `struct.pack("I", ...)` raises on a value that does not fit 32 bits:
an oversized valid count or trigger id makes the channel write fail. -/
theorem writeChannel_fail (b tr ts : Nat) (ch : ChannelData)
    (hbad : 2 ^ 32 ≤ ch.validCount ∨ 2 ^ 32 ≤ tr) :
    (writeChannel b tr ts ch).2 = false := by
  unfold writeChannel packU
  rcases hbad with hv | ht
  · by_cases h1 : tr < 256 ^ 4
    · rw [if_pos h1]
      by_cases h2 : ts < 256 ^ 8
      · rw [if_pos h2, if_neg (by norm_num at hv ⊢; omega)]
      · rw [if_neg h2]
    · rw [if_neg h1]
  · rw [if_neg (by norm_num at ht ⊢; omega)]

theorem getD_replicate_empty (n i : Nat) :
    (List.replicate n ([] : List Nat)).getD i [] = [] := by
  induction n generalizing i with
  | zero => cases i <;> rfl
  | succ n ih =>
    cases i with
    | zero => rfl
    | succ i => simpa [List.replicate] using ih i

/-- The consumer writes exactly the dequeued-before-exit frames, each as
one complete record per channel: the stop flag is checked only between
frames, so no partial record is ever written, but frames still enqueued
when the flag is observed are not drained. -/
theorem saveLoop_dequeued (b : Nat) (items : List (Option Frame)) (k : Nat)
    (files : List (List Nat))
    (hg : ∀ f ∈ dequeuedFrames k items, GoodFrame f)
    (hn : ∀ f ∈ dequeuedFrames k items, f.channels.length = files.length) :
    ∀ i, i < files.length →
      (saveLoop b k items files).1.getD i []
        = files.getD i [] ++ joinL ((dequeuedFrames k items).map (frameRecord b i)) := by
  induction items generalizing k files with
  | nil =>
    intro i hi
    cases k <;> simp [saveLoop, dequeuedFrames, joinL]
  | cons item rest ih =>
    intro i hi
    cases k with
    | zero => simp [saveLoop, dequeuedFrames, joinL]
    | succ k =>
      cases item with
      | none => simp [saveLoop, dequeuedFrames, joinL]
      | some f =>
        simp only [dequeuedFrames] at hg hn ⊢
        obtain ⟨hg1, hg2, hg3⟩ := hg f (by simp)
        have hlen := hn f (by simp)
        have hchar := processChannels_ok_char b f.triggerId f.timestamp f.channels
          files hlen hg1 hg2 (fun c hc => (hg3 c hc).1)
        have hzlen : (List.zipWith
            (fun file ch => file ++ (writeChannel b f.triggerId f.timestamp ch).1)
            files f.channels).length = files.length := by
          simp [hlen]
        simp only [saveLoop, hchar, if_true]
        rw [ih k _ (fun g hgm => hg g (by simp [hgm]))
          (fun g hgm => by rw [hzlen]; exact hn g (by simp [hgm]))
          i (by rw [hzlen]; exact hi)]
        rw [zipWith_append_getD b _ _ files f.channels i hi hlen]
        simp [joinL, frameRecord, List.append_assoc]

/-! ## Prefix determinism of the reader (for truncated files) -/

theorem readU_mono {w x : Nat} {s1 r1 s2 : List Nat}
    (h : readU w s1 = some (x, r1)) (hp : s1 <+: s2) :
    readU w s2 = some (x, s2.drop w) ∧ r1 <+: s2.drop w := by
  obtain ⟨t, rfl⟩ := hp
  have hw := (readU_length h).1
  unfold readU at h ⊢
  rw [if_pos hw] at h
  obtain ⟨hx, hr⟩ := Prod.mk.injEq .. ▸ Option.some.injEq .. ▸ h
  rw [if_pos (by simp; omega)]
  constructor
  · rw [List.take_append_of_le_length hw, ← hx]
  · rw [List.drop_append_of_le_length hw, ← hr]
    exact List.prefix_append _ _

theorem readFloats_mono {n : Nat} {s1 : List Nat} {xs r1 s2 : List Nat}
    (h : readFloats n s1 = some (xs, r1)) (hp : s1 <+: s2) :
    ∃ r2, readFloats n s2 = some (xs, r2) ∧ r1 <+: r2 := by
  induction n generalizing s1 s2 xs r1 with
  | zero =>
    simp only [readFloats, Option.pure_def, Option.some.injEq] at h
    cases h
    exact ⟨s2, rfl, hp⟩
  | succ n ih =>
    simp only [readFloats, Option.pure_def, Option.bind_eq_bind, Option.bind_eq_some] at h
    obtain ⟨⟨x, t1⟩, h1, ⟨ys, t2⟩, h2, h3⟩ := h
    cases h3
    obtain ⟨hu, hup⟩ := readU_mono h1 hp
    obtain ⟨r2, hf, hfp⟩ := ih h2 hup
    refine ⟨r2, ?_, hfp⟩
    simp only [readFloats, Option.pure_def, Option.bind_eq_bind]
    rw [hu, Option.some_bind, hf, Option.some_bind]

theorem readRecord_mono {s1 : List Nat} {e : Event} {r1 s2 : List Nat}
    (h : readRecord s1 = some (e, r1)) (hp : s1 <+: s2) :
    ∃ r2, readRecord s2 = some (e, r2) ∧ r1 <+: r2 := by
  simp only [readRecord, Option.pure_def, Option.bind_eq_bind, Option.bind_eq_some] at h
  obtain ⟨⟨en, t1⟩, h1, ⟨ts, t2⟩, h2, ⟨n, t3⟩, h3, ⟨tr, t4⟩, h4, ⟨wf, t5⟩, h5, h6⟩ := h
  cases h6
  obtain ⟨hu1, hp1⟩ := readU_mono h1 hp
  obtain ⟨hu2, hp2⟩ := readU_mono h2 hp1
  obtain ⟨hu3, hp3⟩ := readU_mono h3 hp2
  obtain ⟨hu4, hp4⟩ := readU_mono h4 hp3
  obtain ⟨r2, hf, hfp⟩ := readFloats_mono h5 hp4
  refine ⟨r2, ?_, hfp⟩
  simp only [readRecord, Option.pure_def, Option.bind_eq_bind]
  rw [hu1, Option.some_bind, hu2, Option.some_bind, hu3, Option.some_bind,
    hu4, Option.some_bind, hf, Option.some_bind]

theorem readFloats_consumed {n : Nat} {s xs r : List Nat}
    (h : readFloats n s = some (xs, r)) : s.length = 4 * n + r.length := by
  induction n generalizing s xs r with
  | zero =>
    simp only [readFloats, Option.pure_def, Option.some.injEq] at h
    cases h
    simp
  | succ n ih =>
    simp only [readFloats, Option.pure_def, Option.bind_eq_bind, Option.bind_eq_some] at h
    obtain ⟨⟨x, t1⟩, h1, ⟨ys, t2⟩, h2, h3⟩ := h
    cases h3
    have l1 := readU_length h1
    have l2 := ih h2
    dsimp only at l1 l2 ⊢
    omega

theorem readRecord_consumed {s : List Nat} {e : Event} {r : List Nat}
    (h : readRecord s = some (e, r)) :
    s.length = 24 + 4 * e.nSamples + r.length := by
  simp only [readRecord, Option.pure_def, Option.bind_eq_bind, Option.bind_eq_some] at h
  obtain ⟨⟨en, t1⟩, h1, ⟨ts, t2⟩, h2, ⟨n, t3⟩, h3, ⟨tr, t4⟩, h4, ⟨wf, t5⟩, h5, h6⟩ := h
  cases h6
  have l1 := readU_length h1
  have l2 := readU_length h2
  have l3 := readU_length h3
  have l4 := readU_length h4
  have l5 := readFloats_consumed h5
  dsimp only at l1 l2 l3 l4 l5 ⊢
  omega

/-- A strict prefix of a full record fails to decode: the reader raises
`struct.error` somewhere inside the truncated fragment. -/
theorem readRecord_truncated {R part : List Nat} {e : Event}
    (hR : readRecord R = some (e, [])) (hp : part <+: R) (hne : part ≠ R) :
    readRecord part = none := by
  by_contra hsome
  obtain ⟨⟨e2, r2⟩, h2⟩ := Option.ne_none_iff_exists'.mp hsome
  obtain ⟨r3, h3, hpr⟩ := readRecord_mono h2 hp
  rw [hR] at h3
  obtain ⟨he, hr⟩ := Prod.mk.injEq .. ▸ Option.some.injEq .. ▸ h3.symm
  subst he
  subst hr
  have hr2 : r2 = [] := List.prefix_nil.mp hpr
  subst hr2
  have l1 := readRecord_consumed h2
  have l2 := readRecord_consumed hR
  exact hne (hp.eq_of_length (by omega))

/-! ## Claims -/

/-- C1: for every sequence of valid, serializable frames (per channel,
`valid_count ≤ len(raw_samples)` and header fields in range for their
on-disk widths), decoding a channel file produced by a clean save-thread
run with the record reader yields, per channel, exactly one record per
frame whose `trigger_id`, `timestamp`, `sample_count` and
`time_resolution` equal the serialized header fields and whose sample
sequence is the calibration transform applied to the first `valid_count`
raw samples of that channel: the full round-trip law. -/
theorem C1_roundtrip (b : Nat) (frames : List Frame) (n i : Nat) (hi : i < n)
    (hg : ∀ f ∈ frames, GoodFrame f)
    (hn : ∀ f ∈ frames, f.channels.length = n) :
    read_raw_data ((save_thread b (frames.length + 1) (frames.map some ++ [none])
        (List.replicate n [])).files.getD i [])
      = frames.map (frameEvent b i) := by
  unfold save_thread
  have hrun := saveLoop_run b frames (frames.length + 1) (List.replicate n [])
    (by omega) hg (fun f hf => by rw [hn f hf]; simp)
  dsimp only
  rw [hrun.2 i (by simpa using hi), getD_replicate_empty, List.nil_append]
  rw [← List.append_nil (joinL (List.map (frameRecord b i) frames)),
    read_raw_data_records b i frames [] hg (fun f hf => by rw [hn f hf]; exact hi),
    read_raw_data_nil, List.append_nil]

theorem C1_roundtrip_witness :
    read_raw_data ((save_thread 1 2
        (([⟨0, 5, [⟨[0, 1], 2⟩]⟩] : List Frame).map some ++ [none])
        (List.replicate 1 [])).files.getD 0 [])
      = [⟨0, 5, 2, 8, [3212836864, 1065353216]⟩] := by
  have h := C1_roundtrip 1 [⟨0, 5, [⟨[0, 1], 2⟩]⟩] 1 0 (by decide) (by decide)
    (by decide)
  exact h.trans (by decide)

/-- C2 counterexample: when the very first trigger/read call raises, the
producer sets the stop flag and still disarms, but the end-of-stream
sentinel is never enqueued (the `put(None)` sits after the `while` loop
inside the `try`, so the exception skips it): the claim that the sentinel
is still enqueued exactly once fails. -/
theorem C2_error_no_sentinel_cex :
    (acquisition_thread [Except.error ()]).stopSet = true ∧
    (acquisition_thread [Except.error ()]).disarmed = true ∧
    ¬ (acquisition_thread [Except.error ()]).queued.count none = 1 := by
  decide

/-- C2 (amended): for every run in which the frame source raises during
the trigger loop, the producer sets the stop flag and still attempts the
disarm command, but it does not enqueue the end-of-stream sentinel: the
frames read before the error are the only items enqueued, and the
storage consumer observes termination through the stop flag instead. -/
theorem C2_error_path (pre : List Frame) (rest : List (Except Unit Frame)) :
    acquisition_thread (pre.map Except.ok ++ Except.error () :: rest)
      = ⟨pre.map some, true, true⟩ := by
  unfold acquisition_thread
  suffices h : ∀ acc, acqLoop (pre.map Except.ok ++ Except.error () :: rest) acc
      = ⟨acc ++ pre.map some, true, true⟩ by
    simpa using h []
  induction pre with
  | nil => intro acc; simp [acqLoop]
  | cons f fr ih =>
    intro acc
    simp only [List.map_cons, List.cons_append, acqLoop, List.append_eq]
    rw [ih (acc ++ [some f])]
    simp

/-- C3 counterexample: with the stop flag observed set at the first
top-of-loop check while one frame is still enqueued, the consumer exits
immediately and the channel file stays empty, although the frame's
serialized record is nonempty: the claim that every already-enqueued
frame is still dequeued and fully serialized fails. -/
theorem C3_dropped_frame_cex :
    (save_thread 1 0 [some ⟨0, 0, [⟨[0], 1⟩]⟩] [[]]).files = [[]] ∧
    frameRecord 1 0 ⟨0, 0, [⟨[0], 1⟩]⟩ ≠ [] := by
  decide

/-- C3 (amended): the consumer checks the stop flag only between frames,
so every frame dequeued before the flag is observed (or before the
sentinel) is serialized completely, one whole record per channel, and no
partial record is ever written; but frames still enqueued when the flag
is observed are not drained: they are dropped, and the sentinel is left
unconsumed. -/
theorem C3_no_partial_record (b extStop : Nat) (items : List (Option Frame))
    (init : List (List Nat))
    (hg : ∀ f ∈ dequeuedFrames extStop items, GoodFrame f)
    (hn : ∀ f ∈ dequeuedFrames extStop items, f.channels.length = init.length) :
    ∀ i, i < init.length →
      (save_thread b extStop items init).files.getD i []
        = init.getD i []
          ++ joinL ((dequeuedFrames extStop items).map (frameRecord b i)) := by
  unfold save_thread
  exact saveLoop_dequeued b items extStop init hg hn

theorem C3_no_partial_record_witness :
    (save_thread 1 1 [some ⟨0, 0, [⟨[0], 1⟩]⟩, some ⟨1, 0, [⟨[0], 1⟩]⟩]
        [[]]).files.getD 0 []
      = ([] : List Nat)
        ++ joinL ((dequeuedFrames 1 [some ⟨0, 0, [⟨[0], 1⟩]⟩,
            some ⟨1, 0, [⟨[0], 1⟩]⟩]).map (frameRecord 1 0)) :=
  C3_no_partial_record 1 1 [some ⟨0, 0, [⟨[0], 1⟩]⟩, some ⟨1, 0, [⟨[0], 1⟩]⟩]
    [[]] (by decide) (by decide) 0 (by decide)

/-- C4: every record written by the save thread for an in-range frame
consists, in order, of the 32-bit trigger id, the 64-bit timestamp, the
32-bit sample count and the 64-bit constant time resolution 8, all
little-endian, followed by exactly `sample_count` 4-byte float samples
and nothing else (24 header bytes + 4·count bytes, no file-level header
or footer), and the record reader decodes exactly these widths in this
order, consuming the whole record. -/
theorem C4_record_format (b trig ts : Nat) (ch : ChannelData)
    (h1 : trig < 2 ^ 32) (h2 : ts < 2 ^ 64) (h3 : ch.validCount < 2 ^ 32)
    (h4 : ch.validCount ≤ ch.raw.length) :
    (writeChannel b trig ts ch).1
        = toLE 4 trig ++ toLE 8 ts ++ toLE 4 ch.validCount ++ toLE 8 8
          ++ joinL (((ch.raw.take ch.validCount).map (adcSampleBits b)).map (toLE 4))
      ∧ (writeChannel b trig ts ch).1.length = 24 + 4 * ch.validCount
      ∧ readRecord ((writeChannel b trig ts ch).1)
          = some (⟨trig, ts, ch.validCount, 8,
              (ch.raw.take ch.validCount).map (adcSampleBits b)⟩, []) := by
  refine ⟨by rw [writeChannel_ok h1 h2 h3], ?_, ?_⟩
  · rw [writeChannel_ok h1 h2 h3]
    have hj : ∀ l : List Nat, (joinL (l.map (toLE 4))).length = 4 * l.length := by
      intro l
      induction l with
      | nil => rfl
      | cons x xs ih => simp [joinL, toLE_length, ih]; ring
    simp only [List.length_append, toLE_length, hj, List.length_map,
      List.length_take] <;> omega
  · have h := readRecord_writeChannel (b := b) [] h1 h2 h3 h4
    rwa [List.append_nil] at h

theorem C4_record_format_witness :
    (writeChannel 1 7 5 ⟨[0, 1], 2⟩).1
        = toLE 4 7 ++ toLE 8 5 ++ toLE 4 2 ++ toLE 8 8
          ++ joinL ((([0, 1].take 2).map (adcSampleBits 1)).map (toLE 4))
      ∧ (writeChannel 1 7 5 ⟨[0, 1], 2⟩).1.length = 24 + 4 * 2
      ∧ readRecord ((writeChannel 1 7 5 ⟨[0, 1], 2⟩).1)
          = some (⟨7, 5, 2, 8, ([0, 1].take 2).map (adcSampleBits 1)⟩, []) :=
  C4_record_format 1 7 5 ⟨[0, 1], 2⟩ (by decide) (by decide) (by decide) (by decide)

/-- C5: the calibration transform is affine and monotonic (floats
idealized as exact rationals): `adc_to_mv b r = r * scale + offset` with
`scale` and `offset` constants derived once from the bit depth `b`; in
particular `adc_to_mv b 0 = offset`, `adc_to_mv b maxRaw = offset +
scale * maxRaw`, and the map is strictly increasing (for any positive bit
depth). -/
theorem C5_calibration_affine (b : Nat) (hb : 1 ≤ b) :
    (∀ r : ℚ, adc_to_mv b r = r * adc_scale b + adc_offset) ∧
    adc_to_mv b 0 = adc_offset ∧
    (∀ maxRaw : ℚ, adc_to_mv b maxRaw = adc_offset + adc_scale b * maxRaw) ∧
    StrictMono (adc_to_mv b) := by
  have h2 : (1 : ℚ) < 2 ^ b := by
    have := Nat.one_lt_two_pow_iff.mpr (show b ≠ 0 by omega)
    exact_mod_cast this
  have hpos : 0 < adc_scale b := by
    unfold adc_scale
    apply div_pos (by norm_num)
    linarith
  refine ⟨fun r => rfl, by simp [adc_to_mv], fun m => by unfold adc_to_mv; ring, ?_⟩
  intro x y hxy
  unfold adc_to_mv
  have := mul_lt_mul_of_pos_right hxy hpos
  linarith

theorem C5_calibration_affine_witness :
    adc_to_mv 16 0 = adc_offset :=
  (C5_calibration_affine 16 (by norm_num)).2.1

/-- C6: for any channel, the save thread calibrates and writes exactly
the first `valid_count` raw samples; raw buffer contents at or beyond
`valid_count` are never calibrated and never reach the file: the written
record is unchanged if the tail beyond `valid_count` is replaced or
removed entirely. -/
theorem C6_only_valid_samples (b trig ts v : Nat) (raw extraTail : List Nat)
    (hv : v ≤ raw.length) :
    writeChannel b trig ts ⟨raw ++ extraTail, v⟩
        = writeChannel b trig ts ⟨raw.take v, v⟩ := by
  unfold writeChannel
  have ht : (raw ++ extraTail).take v = raw.take v := List.take_append_of_le_length hv
  have ht2 : (raw.take v).take v = raw.take v := by
    rw [List.take_take, Nat.min_self]
  dsimp only
  rw [ht, ht2]

theorem C6_only_valid_samples_witness :
    writeChannel 1 0 0 ⟨[3, 4] ++ [9, 9, 9], 2⟩
      = writeChannel 1 0 0 ⟨[3, 4].take 2, 2⟩ :=
  C6_only_valid_samples 1 0 0 2 [3, 4] [9, 9, 9] (by decide)

/-- C7: a channel file holding any number of complete records followed by
an arbitrary strict prefix of a further record (including the empty
prefix, i.e. clean end-of-file) decodes to exactly the complete records,
in file order; the trailing fragment alone fails to decode and no prior
record is lost. -/
theorem C7_truncated_tail (b i : Nat) (frames : List Frame) (g : Frame)
    (hg : ∀ f ∈ frames, GoodFrame f) (hch : ∀ f ∈ frames, i < f.channels.length)
    (hgg : GoodFrame g) (hgch : i < g.channels.length)
    (part : List Nat) (hpre : part <+: frameRecord b i g)
    (hne : part ≠ frameRecord b i g) :
    read_raw_data (joinL (frames.map (frameRecord b i)) ++ part)
      = frames.map (frameEvent b i) := by
  rw [read_raw_data_records b i frames part hg hch]
  obtain ⟨hg1, hg2, hg3⟩ := hgg
  have hmem : g.channels.getD i ⟨[], 0⟩ ∈ g.channels := by
    rw [List.getD_eq_getElem _ _ hgch]
    exact List.getElem_mem _
  obtain ⟨hc1, hc2⟩ := hg3 _ hmem
  have hfull : readRecord (frameRecord b i g)
      = some (⟨g.triggerId, g.timestamp, (g.channels.getD i ⟨[], 0⟩).validCount, 8,
          ((g.channels.getD i ⟨[], 0⟩).raw.take
            (g.channels.getD i ⟨[], 0⟩).validCount).map (adcSampleBits b)⟩, []) := by
    have h := readRecord_writeChannel (b := b) [] hg1 hg2 hc1 hc2
    rwa [List.append_nil] at h
  rw [read_raw_data_eq_nil (readRecord_truncated hfull hpre hne), List.append_nil]

theorem C7_truncated_tail_witness :
    read_raw_data (joinL (([⟨0, 5, [⟨[0, 1], 2⟩]⟩] : List Frame).map
        (frameRecord 1 0)) ++ [7, 0, 0, 0])
      = ([⟨0, 5, [⟨[0, 1], 2⟩]⟩] : List Frame).map (frameEvent 1 0) :=
  C7_truncated_tail 1 0 [⟨0, 5, [⟨[0, 1], 2⟩]⟩] ⟨7, 0, [⟨[0], 1⟩]⟩
    (by decide) (by decide) (by decide) (by decide) [7, 0, 0, 0]
    (by decide) (by decide)

/-- C8: when the stop flag is set before any frame is produced, the
producer enqueues only the sentinel, and the save thread leaves one file
per channel that exists, contains zero records (zero-length, starting
from fresh files), and is flushed and closed: this holds whether the
consumer exits by observing the flag or by consuming the sentinel. -/
theorem C8_stop_before_first_frame (b extStop n : Nat) :
    (acquisition_thread []).queued = [none] ∧
    (save_thread b extStop [none] (List.replicate n [])).files
        = List.replicate n [] ∧
    (save_thread b extStop [none] (List.replicate n [])).files.length = n ∧
    (save_thread b extStop [none] (List.replicate n [])).closed = true := by
  refine ⟨rfl, ?_, ?_, ?_⟩ <;> cases extStop <;> simp [save_thread, saveLoop]

/-- C9: channel files are opened in append mode and never truncated at
pipeline start, so on every run, whatever the schedule of stop-flag
observations, queue contents and frame validity, the bytes already
present in each channel file are unchanged and the run's writes land
strictly after them. -/
theorem C9_append_mode (b extStop : Nat) (items : List (Option Frame))
    (init : List (List Nat)) :
    (save_thread b extStop items init).files.length = init.length ∧
    ∀ i, i < init.length →
      init.getD i [] <+: (save_thread b extStop items init).files.getD i [] := by
  unfold save_thread
  exact ⟨saveLoop_length b extStop items init,
    fun i _ => saveLoop_extends b extStop items init i⟩

theorem C9_append_mode_witness :
    [(7 : Nat)] <+: (save_thread 1 2 [some ⟨0, 0, [⟨[0], 1⟩]⟩]
      [[7]]).files.getD 0 [] :=
  (C9_append_mode 1 2 [some ⟨0, 0, [⟨[0], 1⟩]⟩] [[7]]).2 0 (by decide)

/-- C10: a frame whose valid count (or trigger id) does not fit the
32-bit on-disk field makes `struct.pack` raise: the channel write fails
rather than truncating the value modulo `2^32`, the exception is caught
by the save thread's outer handler, and the stop flag is set, marking
the run failed. -/
theorem C10_overflow_stops_run (b extStop : Nat) (f : Frame)
    (rest : List (Option Frame)) (init : List (List Nat)) (ch : ChannelData)
    (hmem : ch ∈ f.channels)
    (hbig : 2 ^ 32 ≤ ch.validCount ∨ 2 ^ 32 ≤ f.triggerId)
    (hstop : 1 ≤ extStop) :
    (writeChannel b f.triggerId f.timestamp ch).2 = false ∧
    (save_thread b extStop (some f :: rest) init).stopSet = true := by
  have hw := writeChannel_fail b f.triggerId f.timestamp ch hbig
  refine ⟨hw, ?_⟩
  unfold save_thread
  obtain ⟨k, rfl⟩ : ∃ k, extStop = k + 1 := ⟨extStop - 1, by omega⟩
  have hpc := processChannels_fail b f.triggerId f.timestamp f.channels init ch
    hmem hw
  simp [saveLoop, hpc]

theorem C10_overflow_stops_run_witness :
    (writeChannel 1 0 0 ⟨[], 2 ^ 32⟩).2 = false ∧
    (save_thread 1 1 [some ⟨0, 0, [⟨[], 2 ^ 32⟩]⟩] [[]]).stopSet = true :=
  C10_overflow_stops_run 1 1 ⟨0, 0, [⟨[], 2 ^ 32⟩]⟩ [] [[]] ⟨[], 2 ^ 32⟩
    (by decide) (Or.inl (by decide)) (by decide)

end CaenScope
